import Mathlib

/-!
Verification of the AVL tree implementation in `datastructures/avltree.py`.

The Python classes `AVLNode` / `AVLTree` are shallowly embedded as a Lean
inductive type `Node` (Python's `None` child is the `nil` constructor) and
pure functions over it.  Python's in-place mutation of a node's fields is
modelled by rebuilding the node with the changed fields, exactly following
the order of operations of the source; every recursive helper
(`_insert`, `_delete`, `_search`, `_min_value_node`, the traversals and
`_size`) becomes a recursive Lean function with the same case structure.
Machine integers do not occur: Python's ints (heights, sizes) are
unbounded, so `Nat`/`Int` model them exactly.

Attribute accesses on `None` (which would raise `AttributeError` in
Python) are modelled by `Option`: `rotate_right`, `rotate_left` and the
body of `balance` return `none` exactly when the Python code would
dereference an absent child.
-/

/-- Embeds `AVLNode` (`avltree.py` lines 8-32): `key`, `value`, `_left`,
`_right`, `_height`; a `None` reference is `nil`.  The `height` field is the
*cached* `_height` attribute (initialised to 1 by `__init__`). -/
inductive Node (K V : Type) where
  | nil : Node K V
  | node (key : K) (value : V) (left : Node K V) (right : Node K V) (height : Nat) : Node K V
deriving DecidableEq

variable {K V : Type}

/-- Embeds the pattern `n.get_height if n else 0` used throughout the source
(`avltree.py` lines 26-27, 63-64): the cached height of a possibly absent
node, an absent node contributing 0. -/
def getHeight : Node K V → Nat
  | Node.nil => 0
  | Node.node _ _ _ _ h => h

/-- Embeds `AVLNode.balance_factor` (`avltree.py` lines 24-28): cached height
of the left child minus cached height of the right child (as Python ints can
be negative, the result is an `Int`).  Python only ever invokes it on a
present node; on `nil` we return 0, a value no code path consumes. -/
def balanceFactor : Node K V → Int
  | Node.nil => 0
  | Node.node _ _ l r _ => (getHeight l : Int) - (getHeight r : Int)

/-- Embeds `AVLTree.update_height` (`avltree.py` lines 62-65): recompute the
cached height from the children's cached heights.  Python mutates
`node._height`; here the node is rebuilt.  Only ever applied to present
nodes; `nil` maps to `nil`. -/
def updateHeight : Node K V → Node K V
  | Node.nil => Node.nil
  | Node.node k v l r _ => Node.node k v l r (max (getHeight l) (getHeight r) + 1)

/-- Embeds `AVLTree.rotate_right` (`avltree.py` lines 67-73).  `new_root =
node._left` raises `AttributeError` when `_left` is `None`, hence the
`Option`: `none` is the crash.  The two `update_height` calls are performed
in source order (first the demoted node, then the new root, whose
recomputation therefore sees the demoted node's fresh height). -/
def rotateRight : Node K V → Option (Node K V)
  | Node.node k v (Node.node lk lv ll lr _) r _ =>
      some (Node.node lk lv ll
        (Node.node k v lr r (max (getHeight lr) (getHeight r) + 1))
        (max (getHeight ll) (max (getHeight lr) (getHeight r) + 1) + 1))
  | _ => none

/-- Embeds `AVLTree.rotate_left` (`avltree.py` lines 75-81), the mirror image
of `rotate_right`. -/
def rotateLeft : Node K V → Option (Node K V)
  | Node.node k v l (Node.node rk rv rl rr _) _ =>
      some (Node.node rk rv
        (Node.node k v l rl (max (getHeight l) (getHeight rl) + 1))
        rr
        (max (max (getHeight l) (getHeight rl) + 1) (getHeight rr) + 1))
  | _ => none

/-- Embeds `AVLTree.balance` (`avltree.py` lines 51-60) with its possible
`AttributeError`s surfaced as `none`.  `balance` is only called on present
nodes; on `nil` the Python attribute access would crash, hence `none`. -/
def tryBalance : Node K V → Option (Node K V)
  | Node.nil => none
  | Node.node k v l r h =>
      if 1 < balanceFactor (Node.node k v l r h) then
        if balanceFactor l < 0 then
          match rotateLeft l with
          | some l2 => rotateRight (Node.node k v l2 r h)
          | none => none
        else rotateRight (Node.node k v l r h)
      else if balanceFactor (Node.node k v l r h) < -1 then
        if 0 < balanceFactor r then
          match rotateRight r with
          | some r2 => rotateLeft (Node.node k v l r2 h)
          | none => none
        else rotateLeft (Node.node k v l r h)
      else some (Node.node k v l r h)

/-- Total wrapper around `tryBalance` used by `insert`/`delete`; the default
is never reached on the code's call sites (a balance factor beyond ±1 forces
the dereferenced children to be present), it only makes the function total. -/
def balance (n : Node K V) : Node K V := (tryBalance n).getD n

/-- Embeds the inner `_insert` of `AVLTree.insert` (`avltree.py` lines
89-99).  Note the source compares only `key < node.key`; an equal key takes
the `else` branch and is re-inserted into the right subtree. -/
def insertNode [LinearOrder K] : Node K V → K → V → Node K V
  | Node.nil, k, v => Node.node k v Node.nil Node.nil 1
  | Node.node nk nv l r h, k, v =>
      if k < nk then
        balance (updateHeight (Node.node nk nv (insertNode l k v) r h))
      else
        balance (updateHeight (Node.node nk nv l (insertNode r k v) h))

/-- Embeds the inner `_search` of `AVLTree.search` (`avltree.py` lines
101-110). -/
def searchNode [LinearOrder K] : Node K V → K → Option V
  | Node.nil, _ => none
  | Node.node nk nv l r _, k =>
      if k = nk then some nv
      else if k < nk then searchNode l k
      else searchNode r k

/-- Embeds `AVLTree._min_value_node` (`avltree.py` lines 83-87): the loop
descending `_left` links; called on `None` the first `current._left` access
would raise, hence `none`. -/
def minValueNode : Node K V → Option (Node K V)
  | Node.nil => none
  | Node.node k v l r h =>
      match l with
      | Node.nil => some (Node.node k v Node.nil r h)
      | Node.node _ _ _ _ _ => minValueNode l

/-- Embeds the inner `_delete` of `AVLTree.delete` (`avltree.py` lines
112-131): descend by comparison; at the key, splice when a child is absent,
otherwise copy the in-order successor's key and value into the node and
delete the successor's key from the right subtree; `update_height` and
`balance` on the way back up.  The `none` fallthrough of the successor
lookup is unreachable (the right child is present there). -/
def deleteNode [LinearOrder K] : Node K V → K → Node K V
  | Node.nil, _ => Node.nil
  | Node.node nk nv l r h, k =>
      if k < nk then
        balance (updateHeight (Node.node nk nv (deleteNode l k) r h))
      else if nk < k then
        balance (updateHeight (Node.node nk nv l (deleteNode r k) h))
      else
        match l with
        | Node.nil => r
        | Node.node _ _ _ _ _ =>
          match r with
          | Node.nil => l
          | Node.node _ _ _ _ _ =>
            match minValueNode r with
            | some (Node.node tk tv _ _ _) =>
                balance (updateHeight (Node.node tk tv l (deleteNode r tk) h))
            | _ => Node.nil

/-- Embeds the inner `_inorder` of `AVLTree.inorder` (`avltree.py` lines
133-142): the list of keys in left-root-right order (the optional `visit`
callback only produces side effects and never alters the returned keys). -/
def inorderKeys : Node K V → List K
  | Node.nil => []
  | Node.node k _ l r _ => inorderKeys l ++ k :: inorderKeys r

/-- The in-order sequence of (key, value) pairs of the embedded tree; used
to express that an operation preserves the tree's node contents. -/
def inorderPairs : Node K V → List (K × V)
  | Node.nil => []
  | Node.node k v l r _ => inorderPairs l ++ (k, v) :: inorderPairs r

/-- Embeds the inner `_size` of `AVLTree.size` (`avltree.py` lines 180-185). -/
def sizeNode : Node K V → Nat
  | Node.nil => 0
  | Node.node _ _ l r _ => 1 + sizeNode l + sizeNode r

/-- Queue measure used to show the breadth-first loop terminates. -/
def qMeasure (q : List (Node K V)) : Nat := (q.map (fun t => 2 * sizeNode t + 1)).sum

/-- Embeds the `while q:` loop of `AVLTree.bforder` (`avltree.py` lines
166-178): pop the front; an absent node produces no output and is not
expanded; a present node emits its key and enqueues both children (absent
ones included) at the back. -/
def bfs : List (Node K V) → List K
  | [] => []
  | Node.nil :: q => bfs q
  | Node.node k _ l r _ :: q => k :: bfs (q ++ [l, r])
termination_by q => qMeasure q
decreasing_by
  · simp [qMeasure]
  · simp [qMeasure, sizeNode]; omega

/-- Embeds `AVLTree.bforder` (`avltree.py` lines 166-178): the loop started
on a queue holding just the root. -/
def bforder (t : Node K V) : List K := bfs [t]

/-- The true (not cached) height of the embedded tree: a leaf has height 1,
an absent child contributes 0. -/
def realHeight : Node K V → Nat
  | Node.nil => 0
  | Node.node _ _ l r _ => max (realHeight l) (realHeight r) + 1

/-- Height-cache coherence: every node's cached `_height` equals the
recursively computed height of its subtree. -/
def coherent : Node K V → Bool
  | Node.nil => true
  | Node.node _ _ l r h =>
      (h == max (realHeight l) (realHeight r) + 1) && coherent l && coherent r

/-- The AVL balance check of the spec: every node's balance factor (cached
left height minus cached right height) has absolute value at most 1. -/
def allBalanced : Node K V → Bool
  | Node.nil => true
  | Node.node k v l r h =>
      (balanceFactor (Node.node k v l r h)).natAbs ≤ 1 && allBalanced l && allBalanced r

/-- Merge two lists of levels depth-wise: level `d` of the result is level
`d` of the first argument followed by level `d` of the second. -/
def mergeLevels : List (List K) → List (List K) → List (List K)
  | [], ys => ys
  | x :: xs, [] => x :: xs
  | x :: xs, y :: ys => (x ++ y) :: mergeLevels xs ys

/-- The levels of a tree: entry `d` is the list of keys at depth `d`
(the root at depth 0), left-to-right. -/
def levels : Node K V → List (List K)
  | Node.nil => []
  | Node.node k _ l r _ => [k] :: mergeLevels (levels l) (levels r)

/-- The keys at depth `d` of a tree, left-to-right (root at depth 0). -/
def keysAtDepth : Node K V → Nat → List K
  | Node.nil, _ => []
  | Node.node k _ _ _ _, 0 => [k]
  | Node.node _ _ l r _, d + 1 => keysAtDepth l d ++ keysAtDepth r d

/-- The keys of the present roots of a queue of trees, in queue order. -/
def queueRoots : List (Node K V) → List K
  | [] => []
  | Node.nil :: q => queueRoots q
  | Node.node k _ _ _ _ :: q => k :: queueRoots q

/-- The children enqueued when every element of a queue is expanded: a
present node contributes its two child slots, an absent one nothing. -/
def queueChildren : List (Node K V) → List (Node K V)
  | [] => []
  | Node.nil :: q => queueChildren q
  | Node.node _ _ l r _ :: q => l :: r :: queueChildren q

/-- The depth-wise merge of the levels of every tree in a queue: level `d`
of the result concatenates level `d` of each queue element in queue order. -/
def levelsOfQueue (q : List (Node K V)) : List (List K) :=
  q.foldr (fun t acc => mergeLevels (levels t) acc) []

/-- A call to one of the two mutating methods of `AVLTree`. -/
inductive Op (K V : Type) where
  | ins (k : K) (v : V)
  | del (k : K)

/-- Run one public mutating call on the tree root (`AVLTree.insert` /
`AVLTree.delete`, which assign `self._root`). -/
def applyOp [LinearOrder K] (t : Node K V) : Op K V → Node K V
  | Op.ins k v => insertNode t k v
  | Op.del k => deleteNode t k

/-- The tree root after a sequence of public insert/delete calls on a tree
that starts empty (`AVLTree.__init__` sets `self._root = None`; the optional
starting sequence is itself a list of `insert` calls). -/
def runOps [LinearOrder K] (ops : List (Op K V)) : Node K V :=
  ops.foldl applyOp Node.nil

/-- The tree built by inserting keys 5, 3, 8, 1, 4, 7, 9 (each key also used
as its value), the concrete scenario of the spec's testable property 11. -/
def tree7 : Node Int Int :=
  runOps [Op.ins 5 5, Op.ins 3 3, Op.ins 8 8, Op.ins 1 1, Op.ins 4 4,
          Op.ins 7 7, Op.ins 9 9]

/-- The 3-node tree with root 20, left child 10, right child 30 (cached
heights as `insert` would leave them), the spec's testable property 12. -/
def tree3 : Node Int Int :=
  Node.node 20 20 (Node.node 10 10 Node.nil Node.nil 1)
    (Node.node 30 30 Node.nil Node.nil 1) 2

/-- The tree produced by `insert(5, "a")` followed by `insert(5, "b")` on an
empty tree — the overwrite scenario of the spec. -/
def dupTree : Node Int String := insertNode (insertNode Node.nil 5 "a") 5 "b"

theorem coherent_node {k : K} {v : V} {l r : Node K V} {h : Nat} :
    coherent (Node.node k v l r h) = true ↔
      h = max (realHeight l) (realHeight r) + 1 ∧
        coherent l = true ∧ coherent r = true := by
  simp [coherent, and_assoc]

theorem allBalanced_node {k : K} {v : V} {l r : Node K V} {h : Nat} :
    allBalanced (Node.node k v l r h) = true ↔
      ((getHeight l : Int) - (getHeight r : Int)).natAbs ≤ 1 ∧
        allBalanced l = true ∧ allBalanced r = true := by
  simp [allBalanced, balanceFactor, and_assoc]

theorem getHeight_eq_realHeight {t : Node K V} (hc : coherent t = true) :
    getHeight t = realHeight t := by
  cases t with
  | nil => rfl
  | node k v l r h =>
      rcases coherent_node.mp hc with ⟨hh, _, _⟩
      simp [getHeight, realHeight, hh]

/-- C9: `size()` equals the length of the list returned by `inorder()`: both
are full traversals of the same structure, and every node — including any
node holding a duplicated key — contributes exactly one unit to each. -/
theorem claim9_size_eq_inorder_length (t : Node K V) :
    sizeNode t = (inorderKeys t).length := by
  induction t with
  | nil => rfl
  | node k v l r h ihl ihr => simp [sizeNode, inorderKeys, ihl, ihr]; omega

/-- C1 (code bug): inserting `(5, "a")` then `(5, "b")` does not overwrite.
The source's `_insert` compares only `key < node.key` and sends an equal key
into the right subtree, creating a second node; afterwards `search(5)`
returns `"a"` (the first value) and `size()` is 2, not 1. -/
theorem claim1_insert_overwrite_bug :
    searchNode dupTree 5 = some "a" ∧ sizeNode dupTree = 2 ∧
      sizeNode (insertNode (Node.nil : Node Int String) 5 "a") = 1 := by
  decide

/-- C2 (code bug): after the call sequence `insert(5, "a"); insert(5, "b")`
the tree holds two nodes with key 5, so `inorder()` returns `[5, 5]` — not
strictly ascending and not duplicate-free — violating the unique-key BST
invariant the claim states. -/
theorem claim2_duplicate_key_bug :
    inorderKeys (runOps [Op.ins (5 : Int) "a", Op.ins 5 "b"]) = [5, 5] ∧
      ¬ List.Sorted (· < ·) (inorderKeys (runOps [Op.ins (5 : Int) "a", Op.ins 5 "b"])) ∧
      ¬ (inorderKeys (runOps [Op.ins (5 : Int) "a", Op.ins 5 "b"])).Nodup := by
  decide

/-- C7: on any node whose left child is present — the right child may or may
not be — `rotate_right` succeeds and preserves the tree's node contents and
in-order key sequence, and symmetrically `rotate_left` on any node whose
right child is present; since the BST property is exactly sortedness of the
in-order keys, rotation preserves the BST property (final conjunct of each
part). -/
theorem claim7_rotations_preserve_inorder [LinearOrder K] (k : K) (v : V)
    (l r : Node K V) (h : Nat) :
    (l ≠ Node.nil → ∃ m, rotateRight (Node.node k v l r h) = some m ∧
      inorderPairs m = inorderPairs (Node.node k v l r h) ∧
      inorderKeys m = inorderKeys (Node.node k v l r h) ∧
      (List.Sorted (· < ·) (inorderKeys (Node.node k v l r h)) →
        List.Sorted (· < ·) (inorderKeys m))) ∧
    (r ≠ Node.nil → ∃ m, rotateLeft (Node.node k v l r h) = some m ∧
      inorderPairs m = inorderPairs (Node.node k v l r h) ∧
      inorderKeys m = inorderKeys (Node.node k v l r h) ∧
      (List.Sorted (· < ·) (inorderKeys (Node.node k v l r h)) →
        List.Sorted (· < ·) (inorderKeys m))) := by
  constructor
  · intro hl
    cases l with
    | nil => exact absurd rfl hl
    | node lk lv ll lr2 lh =>
        refine ⟨_, rfl, ?_, ?_, ?_⟩
        · simp [rotateRight, inorderPairs]
        · simp [rotateRight, inorderKeys]
        · intro hs
          have hk : inorderKeys
              (Node.node lk lv ll
                (Node.node k v lr2 r (max (getHeight lr2) (getHeight r) + 1))
                (max (getHeight ll) (max (getHeight lr2) (getHeight r) + 1) + 1)) =
              inorderKeys (Node.node k v (Node.node lk lv ll lr2 lh) r h) := by
            simp [inorderKeys]
          rw [hk]; exact hs
  · intro hr
    cases r with
    | nil => exact absurd rfl hr
    | node rk rv rl rr rh2 =>
        refine ⟨_, rfl, ?_, ?_, ?_⟩
        · simp [rotateLeft, inorderPairs]
        · simp [rotateLeft, inorderKeys]
        · intro hs
          have hk : inorderKeys
              (Node.node rk rv
                (Node.node k v l rl (max (getHeight l) (getHeight rl) + 1)) rr
                (max (max (getHeight l) (getHeight rl) + 1) (getHeight rr) + 1)) =
              inorderKeys (Node.node k v l (Node.node rk rv rl rr rh2) h) := by
            simp [inorderKeys]
          rw [hk]; exact hs

/-- C10: on a node with coherent cached heights, a balance factor above 1
forces the left child to be present and one below -1 forces the right child
to be present; consequently every child dereference inside `balance` and the
rotations it invokes hits a present node, and `balance` never fails. -/
theorem claim10_balance_never_fails (k : K) (v : V) (l r : Node K V)
    (h : Nat) (hc : coherent (Node.node k v l r h) = true) :
    (1 < balanceFactor (Node.node k v l r h) → l ≠ Node.nil) ∧
    (balanceFactor (Node.node k v l r h) < -1 → r ≠ Node.nil) ∧
    (tryBalance (Node.node k v l r h)).isSome = true := by
  have hbf : balanceFactor (Node.node k v l r h) =
      (getHeight l : Int) - (getHeight r : Int) := rfl
  refine ⟨?_, ?_, ?_⟩
  · intro hgt hnil
    subst hnil
    simp [getHeight] at hbf
    omega
  · intro hlt hnil
    subst hnil
    simp [getHeight] at hbf
    omega
  · rw [tryBalance]
    by_cases h1 : 1 < balanceFactor (Node.node k v l r h)
    · rw [if_pos h1]
      have hlne : l ≠ Node.nil := by
        intro hnil; subst hnil; simp [getHeight] at hbf; omega
      cases l with
      | nil => exact absurd rfl hlne
      | node lk lv ll lr2 lh =>
          by_cases h2 : balanceFactor (Node.node lk lv ll lr2 lh) < 0
          · rw [if_pos h2]
            have hlrne : lr2 ≠ Node.nil := by
              intro hnil; subst hnil
              simp [balanceFactor, getHeight] at h2
              omega
            cases lr2 with
            | nil => exact absurd rfl hlrne
            | node a b c d e => simp [rotateLeft, rotateRight]
          · rw [if_neg h2]
            simp [rotateRight]
    · rw [if_neg h1]
      by_cases h2 : balanceFactor (Node.node k v l r h) < -1
      · rw [if_pos h2]
        have hrne : r ≠ Node.nil := by
          intro hnil; subst hnil; simp [getHeight] at hbf; omega
        cases r with
        | nil => exact absurd rfl hrne
        | node rk rv rl rr rh2 =>
            by_cases h3 : 0 < balanceFactor (Node.node rk rv rl rr rh2)
            · rw [if_pos h3]
              have hrlne : rl ≠ Node.nil := by
                intro hnil; subst hnil
                simp [balanceFactor, getHeight] at h3
                omega
              cases rl with
              | nil => exact absurd rfl hrlne
              | node a b c d e => simp [rotateRight, rotateLeft]
            · rw [if_neg h3]
              simp [rotateLeft]
      · rw [if_neg h2]
        simp

/-- Witness for C7: `rotate_right` at a left-heavy node whose right child is
absent (the shape `insert [30, 20, 10]` rebalances), and `rotate_left` at a
right-heavy node whose left child is absent. -/
theorem claim7_rotations_preserve_inorder_witness :
    (∃ m, rotateRight (Node.node (30 : Int) (30 : Int)
        (Node.node 20 20 (Node.node 10 10 Node.nil Node.nil 1) Node.nil 2)
        Node.nil 3) = some m ∧
      inorderPairs m = inorderPairs (Node.node (30 : Int) (30 : Int)
        (Node.node 20 20 (Node.node 10 10 Node.nil Node.nil 1) Node.nil 2)
        Node.nil 3) ∧
      inorderKeys m = inorderKeys (Node.node (30 : Int) (30 : Int)
        (Node.node 20 20 (Node.node 10 10 Node.nil Node.nil 1) Node.nil 2)
        Node.nil 3) ∧
      (List.Sorted (· < ·) (inorderKeys (Node.node (30 : Int) (30 : Int)
          (Node.node 20 20 (Node.node 10 10 Node.nil Node.nil 1) Node.nil 2)
          Node.nil 3)) →
        List.Sorted (· < ·) (inorderKeys m))) ∧
    (∃ m, rotateLeft (Node.node (10 : Int) (10 : Int) Node.nil
        (Node.node 20 20 Node.nil (Node.node 30 30 Node.nil Node.nil 1) 2)
        3) = some m ∧
      inorderPairs m = inorderPairs (Node.node (10 : Int) (10 : Int) Node.nil
        (Node.node 20 20 Node.nil (Node.node 30 30 Node.nil Node.nil 1) 2)
        3) ∧
      inorderKeys m = inorderKeys (Node.node (10 : Int) (10 : Int) Node.nil
        (Node.node 20 20 Node.nil (Node.node 30 30 Node.nil Node.nil 1) 2)
        3) ∧
      (List.Sorted (· < ·) (inorderKeys (Node.node (10 : Int) (10 : Int) Node.nil
          (Node.node 20 20 Node.nil (Node.node 30 30 Node.nil Node.nil 1) 2)
          3)) →
        List.Sorted (· < ·) (inorderKeys m))) :=
  ⟨(claim7_rotations_preserve_inorder 30 30
      (Node.node 20 20 (Node.node 10 10 Node.nil Node.nil 1) Node.nil 2)
      Node.nil 3).1 (by decide),
   (claim7_rotations_preserve_inorder 10 10 Node.nil
      (Node.node 20 20 Node.nil (Node.node 30 30 Node.nil Node.nil 1) 2)
      3).2 (by decide)⟩

/-- Witness for C10 on a concrete left-heavy node. -/
theorem claim10_balance_never_fails_witness :
    (1 < balanceFactor (Node.node (5 : Int) (5 : Int)
        (Node.node 3 3 (Node.node 2 2 Node.nil Node.nil 1) Node.nil 2)
        Node.nil 3) →
      Node.node (3 : Int) (3 : Int) (Node.node 2 2 Node.nil Node.nil 1) Node.nil 2 ≠ Node.nil) ∧
    (balanceFactor (Node.node (5 : Int) (5 : Int)
        (Node.node 3 3 (Node.node 2 2 Node.nil Node.nil 1) Node.nil 2)
        Node.nil 3) < -1 →
      (Node.nil : Node Int Int) ≠ Node.nil) ∧
    (tryBalance (Node.node (5 : Int) (5 : Int)
        (Node.node 3 3 (Node.node 2 2 Node.nil Node.nil 1) Node.nil 2)
        Node.nil 3)).isSome = true :=
  claim10_balance_never_fails 5 5 _ _ 3 (by decide)

theorem balance_eq_of_small {k : K} {v : V} {l r : Node K V} {h : Nat}
    (h1 : ¬ 1 < balanceFactor (Node.node k v l r h))
    (h2 : ¬ balanceFactor (Node.node k v l r h) < -1) :
    balance (Node.node k v l r h) = Node.node k v l r h := by
  rw [balance, tryBalance, if_neg h1, if_neg h2]
  rfl

set_option maxHeartbeats 1600000 in
theorem balance_spec (nk : K) (nv : V) (l r : Node K V)
    (hcl : coherent l = true) (hcr : coherent r = true)
    (hbl : allBalanced l = true) (hbr : allBalanced r = true)
    (hd1 : realHeight l ≤ realHeight r + 2) (hd2 : realHeight r ≤ realHeight l + 2) :
    coherent (balance (Node.node nk nv l r (max (realHeight l) (realHeight r) + 1))) = true ∧
    allBalanced (balance (Node.node nk nv l r (max (realHeight l) (realHeight r) + 1))) = true ∧
    (realHeight (balance (Node.node nk nv l r (max (realHeight l) (realHeight r) + 1))) =
        max (realHeight l) (realHeight r) + 1 ∨
      realHeight (balance (Node.node nk nv l r (max (realHeight l) (realHeight r) + 1))) + 1 =
        max (realHeight l) (realHeight r) + 1) := by
  have ghl := getHeight_eq_realHeight hcl
  have ghr := getHeight_eq_realHeight hcr
  have hbf : balanceFactor (Node.node nk nv l r (max (realHeight l) (realHeight r) + 1)) =
      (realHeight l : Int) - realHeight r := by
    simp [balanceFactor, ghl, ghr]
  by_cases hL : realHeight r + 2 ≤ realHeight l
  · -- left-heavy by exactly 2
    have haeq : realHeight l = realHeight r + 2 := by omega
    cases l with
    | nil => simp [realHeight] at haeq
    | node lk lv ll lr lh =>
      obtain ⟨hlh, hcll, hclr⟩ := coherent_node.mp hcl
      obtain ⟨habl, hbll, hblr⟩ := allBalanced_node.mp hbl
      have ghll := getHeight_eq_realHeight hcll
      have ghlr := getHeight_eq_realHeight hclr
      rw [ghll, ghlr] at habl
      have hbfl : balanceFactor (Node.node lk lv ll lr lh) =
          (realHeight ll : Int) - realHeight lr := by
        simp [balanceFactor, ghll, ghlr]
      by_cases hpq : realHeight ll < realHeight lr
      · -- left-right (double rotation) case
        cases lr with
        | nil => simp [realHeight] at hpq
        | node la lb lc ld le =>
          obtain ⟨hle, hclc, hcld⟩ := coherent_node.mp hclr
          obtain ⟨hablr, hblc, hbld⟩ := allBalanced_node.mp hblr
          have ghlc := getHeight_eq_realHeight hclc
          have ghld := getHeight_eq_realHeight hcld
          rw [ghlc, ghld] at hablr
          simp only [balance, tryBalance]
          rw [hbf, if_pos (by simp only [realHeight] at haeq ⊢; omega), hbfl,
            if_pos (by simp only [realHeight] at hpq ⊢; omega)]
          simp only [rotateLeft, rotateRight, Option.getD_some, getHeight, ghll, ghlc, ghld,
            ghr]
          simp only [coherent_node, allBalanced_node, getHeight, realHeight, hcll, hclc,
            hcld, hcr, hbll, hblc, hbld, hbr, and_true, true_and] at *
          omega
      · -- left-left (single rotation) case
        simp only [balance, tryBalance]
        rw [hbf, if_pos (by simp only [realHeight] at haeq ⊢; omega), hbfl,
          if_neg (by omega)]
        cases ll with
        | nil =>
          exfalso
          simp only [realHeight] at haeq hpq
          omega
        | node xa xb xc xd xe =>
          simp only [rotateRight, Option.getD_some, getHeight, ghlr, ghr]
          simp only [coherent_node, allBalanced_node, getHeight, realHeight, hcll, hclr,
            hcr, hbll, hblr, hbr, and_true, true_and] at *
          omega
  · by_cases hR : realHeight l + 2 ≤ realHeight r
    · -- right-heavy by exactly 2 (mirror)
      have haeq : realHeight r = realHeight l + 2 := by omega
      cases r with
      | nil => simp [realHeight] at haeq
      | node rk rv rl rr rh2 =>
        obtain ⟨hrh, hcrl, hcrr⟩ := coherent_node.mp hcr
        obtain ⟨habr, hbrl, hbrr⟩ := allBalanced_node.mp hbr
        have ghrl := getHeight_eq_realHeight hcrl
        have ghrr := getHeight_eq_realHeight hcrr
        rw [ghrl, ghrr] at habr
        have hbfr : balanceFactor (Node.node rk rv rl rr rh2) =
            (realHeight rl : Int) - realHeight rr := by
          simp [balanceFactor, ghrl, ghrr]
        by_cases hpq : realHeight rr < realHeight rl
        · -- right-left (double rotation) case
          cases rl with
          | nil => simp [realHeight] at hpq
          | node la lb lc ld le =>
            obtain ⟨hle, hclc, hcld⟩ := coherent_node.mp hcrl
            obtain ⟨habrl, hblc, hbld⟩ := allBalanced_node.mp hbrl
            have ghlc := getHeight_eq_realHeight hclc
            have ghld := getHeight_eq_realHeight hcld
            rw [ghlc, ghld] at habrl
            simp only [balance, tryBalance]
            rw [hbf, if_neg (by simp only [realHeight] at haeq ⊢; omega),
              if_pos (by simp only [realHeight] at haeq ⊢; omega), hbfr,
              if_pos (by simp only [realHeight] at hpq ⊢; omega)]
            simp only [rotateRight, rotateLeft, Option.getD_some, getHeight, ghrr, ghlc,
              ghld, ghl]
            simp only [coherent_node, allBalanced_node, getHeight, realHeight, hcrr, hclc,
              hcld, hcl, hbrr, hblc, hbld, hbl, and_true, true_and] at *
            omega
        · -- right-right (single rotation) case
          simp only [balance, tryBalance]
          rw [hbf, if_neg (by simp only [realHeight] at haeq ⊢; omega),
            if_pos (by simp only [realHeight] at haeq ⊢; omega), hbfr,
            if_neg (by omega)]
          cases rr with
          | nil =>
            exfalso
            simp only [realHeight] at haeq hpq
            omega
          | node xa xb xc xd xe =>
            simp only [rotateLeft, Option.getD_some, getHeight, ghrl, ghl]
            simp only [coherent_node, allBalanced_node, getHeight, realHeight, hcrl, hcrr,
              hcl, hbrl, hbrr, hbl, and_true, true_and] at *
            omega
    · -- already balanced
      have hs1 : ¬ 1 < balanceFactor
          (Node.node nk nv l r (max (realHeight l) (realHeight r) + 1)) := by
        rw [hbf]; omega
      have hs2 : ¬ balanceFactor
          (Node.node nk nv l r (max (realHeight l) (realHeight r) + 1)) < -1 := by
        rw [hbf]; omega
      have heq := balance_eq_of_small hs1 hs2
      rw [heq]
      refine ⟨coherent_node.mpr ⟨rfl, hcl, hcr⟩,
        allBalanced_node.mpr ⟨by rw [ghl, ghr]; omega, hbl, hbr⟩, Or.inl rfl⟩

theorem balance_updateHeight_good (nk : K) (nv : V) (l r : Node K V) (h : Nat)
    (hcl : coherent l = true) (hcr : coherent r = true)
    (hbl : allBalanced l = true) (hbr : allBalanced r = true)
    (hd1 : realHeight l ≤ realHeight r + 2) (hd2 : realHeight r ≤ realHeight l + 2) :
    coherent (balance (updateHeight (Node.node nk nv l r h))) = true ∧
    allBalanced (balance (updateHeight (Node.node nk nv l r h))) = true ∧
    (realHeight (balance (updateHeight (Node.node nk nv l r h))) =
        max (realHeight l) (realHeight r) + 1 ∨
      realHeight (balance (updateHeight (Node.node nk nv l r h))) + 1 =
        max (realHeight l) (realHeight r) + 1) ∧
    (realHeight l ≤ realHeight r + 1 → realHeight r ≤ realHeight l + 1 →
      realHeight (balance (updateHeight (Node.node nk nv l r h))) =
        max (realHeight l) (realHeight r) + 1) := by
  have ghl := getHeight_eq_realHeight hcl
  have ghr := getHeight_eq_realHeight hcr
  rw [show updateHeight (Node.node nk nv l r h) =
      Node.node nk nv l r (max (realHeight l) (realHeight r) + 1) from by
    simp [updateHeight, ghl, ghr]]
  by_cases hsm : realHeight l ≤ realHeight r + 1 ∧ realHeight r ≤ realHeight l + 1
  · have hbfm : balanceFactor (Node.node nk nv l r (max (realHeight l) (realHeight r) + 1)) =
        (realHeight l : Int) - realHeight r := by
      simp [balanceFactor, ghl, ghr]
    have hc1 : ¬ 1 < balanceFactor
        (Node.node nk nv l r (max (realHeight l) (realHeight r) + 1)) := by
      rw [hbfm]; omega
    have hc2 : ¬ balanceFactor
        (Node.node nk nv l r (max (realHeight l) (realHeight r) + 1)) < -1 := by
      rw [hbfm]; omega
    rw [balance_eq_of_small hc1 hc2]
    refine ⟨coherent_node.mpr ⟨rfl, hcl, hcr⟩, ?_, ?_, ?_⟩
    · apply allBalanced_node.mpr
      refine ⟨?_, hbl, hbr⟩
      rw [ghl, ghr]
      omega
    · exact Or.inl rfl
    · exact fun _ _ => rfl
  · obtain ⟨h1, h2, h3⟩ := balance_spec nk nv l r hcl hcr hbl hbr hd1 hd2
    exact ⟨h1, h2, h3, fun ha hb => absurd ⟨ha, hb⟩ hsm⟩

theorem insert_good [LinearOrder K] (k : K) (v : V) (t : Node K V)
    (hc : coherent t = true) (hb : allBalanced t = true) :
    coherent (insertNode t k v) = true ∧ allBalanced (insertNode t k v) = true ∧
      (realHeight (insertNode t k v) = realHeight t ∨
        realHeight (insertNode t k v) = realHeight t + 1) := by
  induction t with
  | nil => exact ⟨rfl, rfl, Or.inr rfl⟩
  | node nk nv l r h ihl ihr =>
    obtain ⟨hh, hcl, hcr⟩ := coherent_node.mp hc
    obtain ⟨hab, hbl, hbr⟩ := allBalanced_node.mp hb
    have ghl := getHeight_eq_realHeight hcl
    have ghr := getHeight_eq_realHeight hcr
    rw [ghl, ghr] at hab
    by_cases hk : k < nk
    · obtain ⟨hcl', hbl', hh'⟩ := ihl hcl hbl
      simp only [insertNode, if_pos hk]
      obtain ⟨h1, h2, h3, h4⟩ := balance_updateHeight_good nk nv (insertNode l k v) r h
        hcl' hcr hbl' hbr (by omega) (by omega)
      refine ⟨h1, h2, ?_⟩
      by_cases hsm : realHeight (insertNode l k v) ≤ realHeight r + 1 ∧
          realHeight r ≤ realHeight (insertNode l k v) + 1
      · have h5 := h4 hsm.1 hsm.2
        simp only [realHeight]
        omega
      · simp only [realHeight]
        omega
    · obtain ⟨hcr', hbr', hh'⟩ := ihr hcr hbr
      simp only [insertNode, if_neg hk]
      obtain ⟨h1, h2, h3, h4⟩ := balance_updateHeight_good nk nv l (insertNode r k v) h
        hcl hcr' hbl hbr' (by omega) (by omega)
      refine ⟨h1, h2, ?_⟩
      by_cases hsm : realHeight l ≤ realHeight (insertNode r k v) + 1 ∧
          realHeight (insertNode r k v) ≤ realHeight l + 1
      · have h5 := h4 hsm.1 hsm.2
        simp only [realHeight]
        omega
      · simp only [realHeight]
        omega

theorem minValueNode_shape (t : Node K V) (ht : t ≠ Node.nil) :
    ∃ tk tv rr hh, minValueNode t = some (Node.node tk tv Node.nil rr hh) := by
  induction t with
  | nil => exact absurd rfl ht
  | node k v l r h ihl ihr =>
    cases l with
    | nil => exact ⟨k, v, r, h, rfl⟩
    | node a b c d e =>
      obtain ⟨tk, tv, rr, hh, heq⟩ := ihl (by simp)
      exact ⟨tk, tv, rr, hh, by simp only [minValueNode]; exact heq⟩

theorem delete_good [LinearOrder K] (k : K) (t : Node K V)
    (hc : coherent t = true) (hb : allBalanced t = true) :
    coherent (deleteNode t k) = true ∧ allBalanced (deleteNode t k) = true ∧
      (realHeight (deleteNode t k) = realHeight t ∨
        realHeight (deleteNode t k) + 1 = realHeight t) := by
  induction t generalizing k with
  | nil => exact ⟨rfl, rfl, Or.inl rfl⟩
  | node nk nv l r h ihl ihr =>
    obtain ⟨hh, hcl, hcr⟩ := coherent_node.mp hc
    obtain ⟨hab, hbl, hbr⟩ := allBalanced_node.mp hb
    have ghl := getHeight_eq_realHeight hcl
    have ghr := getHeight_eq_realHeight hcr
    rw [ghl, ghr] at hab
    by_cases hk1 : k < nk
    · obtain ⟨hcl', hbl', hh'⟩ := ihl k hcl hbl
      simp only [deleteNode, if_pos hk1]
      obtain ⟨h1, h2, h3, h4⟩ := balance_updateHeight_good nk nv (deleteNode l k) r h
        hcl' hcr hbl' hbr (by omega) (by omega)
      refine ⟨h1, h2, ?_⟩
      by_cases hsm : realHeight (deleteNode l k) ≤ realHeight r + 1 ∧
          realHeight r ≤ realHeight (deleteNode l k) + 1
      · have h5 := h4 hsm.1 hsm.2
        simp only [realHeight]
        omega
      · simp only [realHeight]
        omega
    · by_cases hk2 : nk < k
      · obtain ⟨hcr', hbr', hh'⟩ := ihr k hcr hbr
        simp only [deleteNode, if_neg hk1, if_pos hk2]
        obtain ⟨h1, h2, h3, h4⟩ := balance_updateHeight_good nk nv l (deleteNode r k) h
          hcl hcr' hbl hbr' (by omega) (by omega)
        refine ⟨h1, h2, ?_⟩
        by_cases hsm : realHeight l ≤ realHeight (deleteNode r k) + 1 ∧
            realHeight (deleteNode r k) ≤ realHeight l + 1
        · have h5 := h4 hsm.1 hsm.2
          simp only [realHeight]
          omega
        · simp only [realHeight]
          omega
      · simp only [deleteNode, if_neg hk1, if_neg hk2]
        cases l with
        | nil =>
          refine ⟨hcr, hbr, ?_⟩
          simp only [realHeight]
          omega
        | node la lb lc ld le =>
          cases r with
          | nil =>
            refine ⟨hcl, hbl, ?_⟩
            simp only [realHeight]
            omega
          | node ra rb rc rd re =>
            obtain ⟨tk, tv, rr, hh2, hmin⟩ :=
              minValueNode_shape (Node.node ra rb rc rd re) (by simp)
            rw [hmin]
            obtain ⟨hcr', hbr', hh'⟩ := ihr tk hcr hbr
            obtain ⟨h1, h2, h3, h4⟩ := balance_updateHeight_good tk tv
              (Node.node la lb lc ld le) (deleteNode (Node.node ra rb rc rd re) tk) h
              hcl hcr' hbl hbr' (by omega) (by omega)
            refine ⟨h1, h2, ?_⟩
            by_cases hsm : realHeight (Node.node la lb lc ld le) ≤
                realHeight (deleteNode (Node.node ra rb rc rd re) tk) + 1 ∧
                realHeight (deleteNode (Node.node ra rb rc rd re) tk) ≤
                  realHeight (Node.node la lb lc ld le) + 1
            · have h5 := h4 hsm.1 hsm.2
              simp only [realHeight] at *
              omega
            · simp only [realHeight] at *
              omega

theorem foldl_applyOp_good [LinearOrder K] (ops : List (Op K V)) :
    ∀ (t : Node K V), coherent t = true → allBalanced t = true →
      coherent (ops.foldl applyOp t) = true ∧
        allBalanced (ops.foldl applyOp t) = true := by
  induction ops with
  | nil => exact fun t hc hb => ⟨hc, hb⟩
  | cons op ops ih =>
    intro t hc hb
    simp only [List.foldl_cons]
    cases op with
    | ins k v =>
      obtain ⟨h1, h2, _⟩ := insert_good k v t hc hb
      exact ih _ h1 h2
    | del k =>
      obtain ⟨h1, h2, _⟩ := delete_good k t hc hb
      exact ih _ h1 h2

theorem runOps_good [LinearOrder K] (ops : List (Op K V)) :
    coherent (runOps ops) = true ∧ allBalanced (runOps ops) = true :=
  foldl_applyOp_good ops Node.nil rfl rfl

/-- C3: after every sequence of public insert and delete calls starting from
the empty tree, every node of the resulting tree has a balance factor
(cached height of the left child minus cached height of the right child,
absent child contributing 0) of absolute value at most 1. -/
theorem claim3_balance_invariant [LinearOrder K] (ops : List (Op K V)) :
    allBalanced (runOps ops) = true :=
  (runOps_good ops).2

/-- C4: after every sequence of public insert and delete calls starting from
the empty tree, the cached height field of every node equals the true
recursively computed height of its subtree (a leaf has height 1, an absent
child contributes 0). -/
theorem claim4_height_cache_coherent [LinearOrder K] (ops : List (Op K V)) :
    coherent (runOps ops) = true :=
  (runOps_good ops).1

/-- C5: deleting a key that is not present in a tree satisfying the
height-coherence and balance invariants returns a structurally identical
tree (same shape, keys, values and cached heights — stated as equality of
the embedded tree values). -/
theorem claim5_delete_absent_noop [LinearOrder K] (t : Node K V) (k : K)
    (hc : coherent t = true) (hb : allBalanced t = true)
    (habs : k ∉ inorderKeys t) :
    deleteNode t k = t := by
  induction t with
  | nil => rfl
  | node nk nv l r h ihl ihr =>
    obtain ⟨hh, hcl, hcr⟩ := coherent_node.mp hc
    obtain ⟨hab, hbl, hbr⟩ := allBalanced_node.mp hb
    have ghl := getHeight_eq_realHeight hcl
    have ghr := getHeight_eq_realHeight hcr
    rw [ghl, ghr] at hab
    simp only [inorderKeys, List.mem_append, List.mem_cons] at habs
    push_neg at habs
    obtain ⟨hnl, hne, hnr⟩ := habs
    have hup : updateHeight (Node.node nk nv l r h) = Node.node nk nv l r h := by
      simp [updateHeight, ghl, ghr, hh]
    have hbfm : balanceFactor (Node.node nk nv l r h) =
        (realHeight l : Int) - realHeight r := by
      simp [balanceFactor, ghl, ghr]
    have hc1 : ¬ 1 < balanceFactor (Node.node nk nv l r h) := by
      rw [hbfm]; omega
    have hc2 : ¬ balanceFactor (Node.node nk nv l r h) < -1 := by
      rw [hbfm]; omega
    by_cases hk1 : k < nk
    · simp only [deleteNode, if_pos hk1, ihl hcl hbl hnl, hup]
      exact balance_eq_of_small hc1 hc2
    · by_cases hk2 : nk < k
      · simp only [deleteNode, if_neg hk1, if_pos hk2, ihr hcr hbr hnr, hup]
        exact balance_eq_of_small hc1 hc2
      · exact absurd (le_antisymm (not_lt.mp hk2) (not_lt.mp hk1)) hne

/-- Witness for C5: deleting the absent key 6 from the balanced 7-node tree
leaves it unchanged. -/
theorem claim5_delete_absent_noop_witness :
    coherent tree7 = true ∧ allBalanced tree7 = true ∧
      (6 : Int) ∉ inorderKeys tree7 ∧ deleteNode tree7 6 = tree7 :=
  ⟨by decide, by decide, by decide,
    claim5_delete_absent_noop tree7 6 (by decide) (by decide) (by decide)⟩

/-- C6: in the tree built by inserting `[5, 3, 8, 1, 4, 7, 9]` the node with
key 3 has two children (1 and 4); `delete(3)` replaces that node's key and
value by those of its in-order successor 4 (the minimum of its right
subtree) and removes the successor node from the right subtree, giving
`inorder() = [1, 4, 5, 7, 8, 9]` with the balance invariant holding at every
node. -/
theorem claim6_delete_two_children :
    tree7 = Node.node 5 5
      (Node.node 3 3 (Node.node 1 1 Node.nil Node.nil 1)
        (Node.node 4 4 Node.nil Node.nil 1) 2)
      (Node.node 8 8 (Node.node 7 7 Node.nil Node.nil 1)
        (Node.node 9 9 Node.nil Node.nil 1) 2) 3 ∧
    minValueNode (Node.node 4 4 Node.nil Node.nil 1) =
      some (Node.node 4 4 Node.nil Node.nil 1) ∧
    deleteNode tree7 3 = Node.node 5 5
      (Node.node 4 4 (Node.node 1 1 Node.nil Node.nil 1) Node.nil 2)
      (Node.node 8 8 (Node.node 7 7 Node.nil Node.nil 1)
        (Node.node 9 9 Node.nil Node.nil 1) 2) 3 ∧
    inorderKeys (deleteNode tree7 3) = [1, 4, 5, 7, 8, 9] ∧
    allBalanced (deleteNode tree7 3) = true := by
  decide

theorem qMeasure_cons (x : Node K V) (q : List (Node K V)) :
    qMeasure (x :: q) = 2 * sizeNode x + 1 + qMeasure q := by
  simp [qMeasure]

theorem qMeasure_append (q1 q2 : List (Node K V)) :
    qMeasure (q1 ++ q2) = qMeasure q1 + qMeasure q2 := by
  simp [qMeasure]

theorem qMeasure_nil : qMeasure ([] : List (Node K V)) = 0 := rfl

theorem qMeasure_queueChildren (q : List (Node K V)) :
    qMeasure (queueChildren q) + q.length = qMeasure q := by
  induction q with
  | nil => rfl
  | cons x q ih =>
    cases x with
    | nil => simp only [queueChildren, qMeasure_cons, List.length_cons, sizeNode]; omega
    | node k v l r h =>
      simp only [queueChildren, qMeasure_cons, List.length_cons, sizeNode] at *
      omega

theorem mergeLevels_nil_left (ys : List (List K)) : mergeLevels [] ys = ys := rfl

theorem mergeLevels_nil_right (xs : List (List K)) : mergeLevels xs [] = xs := by
  cases xs <;> rfl

theorem mergeLevels_cons_any (a : List K) (X Y : List (List K)) :
    mergeLevels (a :: X) Y = (a ++ Y.headD []) :: mergeLevels X Y.tail := by
  cases Y with
  | nil => simp [mergeLevels_nil_right]
  | cons y ys => rfl

theorem mergeLevels_assoc (a b c : List (List K)) :
    mergeLevels (mergeLevels a b) c = mergeLevels a (mergeLevels b c) := by
  induction a generalizing b c with
  | nil => simp [mergeLevels_nil_left]
  | cons x xs ih =>
    cases b with
    | nil => simp [mergeLevels_nil_left, mergeLevels_nil_right]
    | cons y ys =>
      cases c with
      | nil => simp [mergeLevels_nil_right, mergeLevels]
      | cons z zs => simp [mergeLevels, ih]

theorem levelsOfQueue_cons (t : Node K V) (q : List (Node K V)) :
    levelsOfQueue (t :: q) = mergeLevels (levels t) (levelsOfQueue q) := rfl

theorem levelsOfQueue_append (q1 q2 : List (Node K V)) :
    levelsOfQueue (q1 ++ q2) =
      mergeLevels (levelsOfQueue q1) (levelsOfQueue q2) := by
  induction q1 with
  | nil => simp [levelsOfQueue, mergeLevels_nil_left]
  | cons t q ih => simp [levelsOfQueue_cons, ih, mergeLevels_assoc]

theorem levelsOfQueue_spec (q : List (Node K V)) :
    (levelsOfQueue q).headD [] = queueRoots q ∧
      (levelsOfQueue q).tail = levelsOfQueue (queueChildren q) := by
  induction q with
  | nil => exact ⟨rfl, rfl⟩
  | cons t q ih =>
    cases t with
    | nil =>
      simp only [levelsOfQueue_cons, levels, mergeLevels_nil_left, queueRoots,
        queueChildren]
      exact ih
    | node k v l r h =>
      constructor
      · simp only [levelsOfQueue_cons, levels, mergeLevels_cons_any, queueRoots,
          List.headD_cons, List.singleton_append]
        rw [ih.1]
      · simp only [levelsOfQueue_cons, levels, mergeLevels_cons_any, queueChildren,
          List.tail_cons]
        rw [ih.2]
        rw [mergeLevels_assoc]

theorem flatten_levelsOfQueue (q : List (Node K V)) :
    (levelsOfQueue q).flatten =
      queueRoots q ++ (levelsOfQueue (queueChildren q)).flatten := by
  obtain ⟨h1, h2⟩ := levelsOfQueue_spec q
  cases hq : levelsOfQueue q with
  | nil =>
    rw [hq] at h1 h2
    simp only [List.headD_nil] at h1
    simp only [List.tail_nil] at h2
    rw [← h1, ← h2]
    rfl
  | cons L Ls =>
    rw [hq] at h1 h2
    simp only [List.headD_cons] at h1
    simp only [List.tail_cons] at h2
    rw [List.flatten_cons, h1, h2]

theorem bfs_append (A B : List (Node K V)) :
    bfs (A ++ B) = queueRoots A ++ bfs (B ++ queueChildren A) := by
  suffices h : ∀ n, ∀ (A B : List (Node K V)), qMeasure (A ++ B) = n →
      bfs (A ++ B) = queueRoots A ++ bfs (B ++ queueChildren A) by
    exact h _ A B rfl
  intro n
  induction n using Nat.strong_induction_on with
  | _ n ih =>
    intro A B hm
    cases A with
    | nil => simp [queueRoots, queueChildren]
    | cons a A2 =>
      cases a with
      | nil =>
        rw [List.cons_append, show bfs (Node.nil :: (A2 ++ B)) = bfs (A2 ++ B) from by
          rw [bfs]]
        have hlt : qMeasure (A2 ++ B) < n := by
          rw [← hm]
          simp only [List.cons_append, qMeasure_cons, sizeNode]
          omega
        rw [ih (qMeasure (A2 ++ B)) hlt A2 B rfl]
        simp [queueRoots, queueChildren]
      | node k v l r hh =>
        rw [List.cons_append, show bfs (Node.node k v l r hh :: (A2 ++ B)) =
            k :: bfs ((A2 ++ B) ++ [l, r]) from by rw [bfs]]
        have hlt : qMeasure (A2 ++ (B ++ [l, r])) < n := by
          rw [← hm]
          simp only [List.cons_append, qMeasure_append, qMeasure_cons, qMeasure_nil,
            sizeNode]
          omega
        rw [List.append_assoc, ih (qMeasure (A2 ++ (B ++ [l, r]))) hlt
          A2 (B ++ [l, r]) rfl]
        simp [queueRoots, queueChildren, List.append_assoc]

theorem bfs_roots (q : List (Node K V)) :
    bfs q = queueRoots q ++ bfs (queueChildren q) := by
  have h := bfs_append q []
  simpa using h

theorem bfs_eq_flatten (q : List (Node K V)) :
    bfs q = (levelsOfQueue q).flatten := by
  suffices h : ∀ n, ∀ (q : List (Node K V)), qMeasure q = n →
      bfs q = (levelsOfQueue q).flatten by exact h _ q rfl
  intro n
  induction n using Nat.strong_induction_on with
  | _ n ih =>
    intro q hm
    cases q with
    | nil => rw [bfs]; rfl
    | cons t q2 =>
      rw [bfs_roots, flatten_levelsOfQueue]
      have hlt : qMeasure (queueChildren (t :: q2)) < n := by
        rw [← hm]
        have h2 := qMeasure_queueChildren (t :: q2)
        simp only [List.length_cons] at h2
        omega
      rw [ih (qMeasure (queueChildren (t :: q2))) hlt (queueChildren (t :: q2)) rfl]

theorem bforder_eq_flatten_levels (t : Node K V) :
    bforder t = (levels t).flatten := by
  rw [bforder, bfs_eq_flatten]
  simp [levelsOfQueue_cons, levelsOfQueue, mergeLevels_nil_right]

theorem getD_mergeLevels (A B : List (List K)) (d : Nat) :
    (mergeLevels A B).getD d [] = A.getD d [] ++ B.getD d [] := by
  induction A generalizing B d with
  | nil => simp [mergeLevels_nil_left]
  | cons x xs ih =>
    cases B with
    | nil => simp [mergeLevels_nil_right]
    | cons y ys =>
      cases d with
      | zero => rfl
      | succ d => simp only [mergeLevels, List.getD_cons_succ, ih]

theorem levels_getD (t : Node K V) (d : Nat) :
    (levels t).getD d [] = keysAtDepth t d := by
  induction t generalizing d with
  | nil => cases d <;> rfl
  | node k v l r h ihl ihr =>
    cases d with
    | zero => rfl
    | succ d =>
      simp only [levels, keysAtDepth, List.getD_cons_succ, getD_mergeLevels, ihl, ihr]

theorem length_mergeLevels (A B : List (List K)) :
    (mergeLevels A B).length = max A.length B.length := by
  induction A generalizing B with
  | nil => simp [mergeLevels_nil_left]
  | cons x xs ih =>
    cases B with
    | nil => simp [mergeLevels_nil_right]
    | cons y ys =>
      simp only [mergeLevels, List.length_cons, ih]
      omega

theorem levels_length (t : Node K V) : (levels t).length = realHeight t := by
  induction t with
  | nil => rfl
  | node k v l r h ihl ihr =>
    simp only [levels, realHeight, List.length_cons, length_mergeLevels, ihl, ihr]

/-- C8: `bforder()` (the FIFO-queue loop in which absent children are
enqueued but produce no output and are not expanded) returns the tree's
keys ordered by depth, left-to-right within each depth: it equals the
concatenation of the tree's levels, whose entry `d` is exactly the list of
keys at depth `d` left-to-right and whose count is the tree's height; on
the 3-node tree with root 20, left child 10, right child 30 it returns
`[20, 10, 30]`. -/
theorem claim8_bforder_level_order :
    (∀ (t : Node Int Int), bforder t = (levels t).flatten ∧
      (∀ d, (levels t).getD d [] = keysAtDepth t d) ∧
      (levels t).length = realHeight t) ∧
    bforder tree3 = [20, 10, 30] := by
  refine ⟨fun t => ⟨bforder_eq_flatten_levels t, fun d => levels_getD t d,
    levels_length t⟩, ?_⟩
  rw [bforder_eq_flatten_levels]
  decide
